import Mathlib

/-!
Verification of the einsum core of cupy/linalg/einsum.py.

The development shallowly embeds the source file: the subscript
parser/validator and the four view calculators (SingleViewCalculator,
SummedViewCalculator, TransposedViewCalculator, CombinedViewCalculator)
are translated function by function.  Arrays are modelled as a shape
(list of extents) together with a total indexing function into the exact
integers; the element type is carried as metadata, since the claims about
dtypes concern only promotion and casting, not rounding.  The array
primitives the source calls into (diagonal, rollaxis, transpose, sum,
tensordot, result_type) are collaborators of the core; they are modelled
with their documented NumPy semantics at exactly the argument patterns
the source uses.
-/

namespace CupyEinsum

/-- Numeric element types of operand arrays (the dtypes the promotion
claims exercise). -/
inductive DType where
  | bool | int8 | int16 | int32 | int64 | float16 | float32 | float64
deriving DecidableEq

/-- Whether a dtype is a floating kind. -/
def DType.isFloat : DType → Bool
  | .float16 | .float32 | .float64 => true
  | _ => false

/-- Position of a dtype inside its kind ladder, used by promotion. -/
def DType.level : DType → Nat
  | .bool => 0 | .int8 => 1 | .int16 => 2 | .int32 => 3 | .int64 => 4
  | .float16 => 5 | .float32 => 6 | .float64 => 7

/-- Smallest float dtype an integer dtype promotes to when mixed with a
float, per the NumPy promotion table. -/
def DType.minFloat : DType → DType
  | .bool => .float16 | .int8 => .float16 | .int16 => .float32
  | .int32 => .float64 | .int64 => .float64
  | d => d

/-- Collaborator contract: the common-type resolution of two dtypes
(NumPy promote_types restricted to the dtypes above). -/
def promote (a b : DType) : DType :=
  if a.isFloat = b.isFloat then (if a.level ≤ b.level then b else a)
  else if a.isFloat then (if b.minFloat.level ≤ a.level then a else b.minFloat)
  else (if a.minFloat.level ≤ b.level then b else a.minFloat)

/-- Collaborator contract: the accumulation dtype NumPy's sum uses for a
given input dtype (small integers and bool upcast to the default integer). -/
def sumUpcast : DType → DType
  | .bool | .int8 | .int16 | .int32 | .int64 => .int64
  | d => d

/-- An n-dimensional array value: element dtype, shape, and a total
indexing function.  Only indices that are pointwise below the shape are
meaningful; operations may return junk outside that set. -/
structure Tensor where
  dtype : DType
  shape : List Nat
  data : List Nat → Int

/-- Number of axes of a tensor. -/
def Tensor.ndim (t : Tensor) : Nat := t.shape.length

/-- Collaborator contract: cast to a dtype.  Values are exact in this
model, so only the dtype metadata changes. -/
def Tensor.astype (t : Tensor) (d : DType) : Tensor := { t with dtype := d }

/-- A multi-index is valid for a shape when it has one coordinate per
axis and each coordinate is below that axis's extent. -/
def validIdx (idx shape : List Nat) : Prop :=
  List.Forall₂ (fun i s => i < s) idx shape

/-- Extensional equality of tensors: same dtype, same shape, and the same
value at every valid multi-index. -/
def Tensor.eqv (a b : Tensor) : Prop :=
  a.dtype = b.dtype ∧ a.shape = b.shape ∧
    ∀ idx, validIdx idx a.shape → a.data idx = b.data idx

/-- Insert an element at a given position of a list (used to build source
indices of view operations). -/
def insertAt (pos : Nat) (x : α) (l : List α) : List α :=
  l.take pos ++ x :: l.drop pos

/-- Collaborator contract: NumPy diagonal with offset 0 between two
distinct axes.  Both axes are removed and an axis of the common (minimum)
extent is appended at the end; an entry of the result reads the source at
the two equal coordinates. -/
def Tensor.diagonal (t : Tensor) (axis1 axis2 : Nat) : Tensor :=
  let p := min axis1 axis2
  let q := max axis1 axis2
  { dtype := t.dtype
    shape := ((t.shape.eraseIdx q).eraseIdx p) ++
      [min (t.shape.getD axis1 0) (t.shape.getD axis2 0)]
    data := fun idx =>
      let k := idx.getD (t.ndim - 2) 0
      t.data (insertAt p k (insertAt (q - 1) k (idx.take (t.ndim - 2)))) }

/-- Collaborator contract: NumPy rollaxis with axis -1, i.e. moving the
last axis so that it ends up at position start. -/
def Tensor.rollaxisLast (t : Tensor) (start : Nat) : Tensor :=
  { dtype := t.dtype
    shape := insertAt start (t.shape.getD (t.ndim - 1) 0) t.shape.dropLast
    data := fun idx => t.data ((idx.eraseIdx start) ++ [idx.getD start 0]) }

/-- Collaborator contract: NumPy transpose with an explicit axis
permutation. -/
def Tensor.transpose (t : Tensor) (perm : List Nat) : Tensor :=
  { dtype := t.dtype
    shape := perm.map (fun p => t.shape.getD p 0)
    data := fun idx =>
      t.data ((List.range t.ndim).map (fun p => idx.getD (perm.indexOf p) 0)) }

/-- Summation over a single axis, in the accumulation dtype. -/
def Tensor.sumAxis (t : Tensor) (ax : Nat) : Tensor :=
  { dtype := sumUpcast t.dtype
    shape := t.shape.eraseIdx ax
    data := fun idx =>
      Finset.sum (Finset.range (t.shape.getD ax 0)) (fun k => t.data (insertAt ax k idx)) }

/-- Collaborator contract: NumPy sum over an ascending tuple of axes,
realized value-equivalently as iterated single-axis sums taken from the
largest axis down (so positions stay stable). -/
def Tensor.sumAxes (t : Tensor) (axes : List Nat) : Tensor :=
  axes.foldr (fun ax acc => acc.sumAxis ax) t

/-- Collaborator contract: NumPy tensordot with axes=0, i.e. the outer
(tensor) product; dtypes are promoted. -/
def Tensor.tensordot (a b : Tensor) : Tensor :=
  { dtype := promote a.dtype b.dtype
    shape := a.shape ++ b.shape
    data := fun idx => a.data (idx.take a.ndim) * b.data (idx.drop a.ndim) }

/-- Collaborator contract: numpy.result_type over a list of arrays —
a fold of pairwise promotion; NumPy raises a ValueError when it is given
no argument at all, modelled as the none case. -/
def result_type : List Tensor → Option DType
  | [] => none
  | t :: ts => some (ts.foldl (fun d x => promote d x.dtype) t.dtype)

/-- Deduplicate a character list keeping first occurrences, with an
accumulator of already-seen characters.  This is the deterministic stand-in
for the source's iteration over a Python set / Counter key view (Counter
keys iterate in first-occurrence order; set order is unspecified). -/
def dedupFirstAux (seen : List Char) : List Char → List Char
  | [] => []
  | c :: t =>
    if seen.contains c then dedupFirstAux seen t
    else c :: dedupFirstAux (c :: seen) t

/-- Deduplicate a character list keeping first occurrences. -/
def dedupFirst (l : List Char) : List Char := dedupFirstAux [] l

/-- Positions of a label inside a subscript (the axes_to_diag loop of
SingleViewCalculator.__call__). -/
def positionsOf (sub : List Char) (label : Char) : List Nat :=
  (List.range sub.length).filter (fun i => sub.getD i ' ' == label)

/-- One diagonal step of SingleViewCalculator.__call__: take the diagonal
between the current axis and the first occurrence, roll the produced axis
back to the first occurrence's slot, and drop the consumed character. -/
def collapseStep (st : Tensor × List Char) (first axis : Nat) : Tensor × List Char :=
  ((st.1.diagonal axis first).rollaxisLast first, st.2.eraseIdx axis)

/-- Process one repeated label of SingleViewCalculator.__call__: compute
all its positions in the current subscript, then fold the diagonal step
over the non-first positions in reverse order. -/
def collapseLabel (st : Tensor × List Char) (label : Char) : Tensor × List Char :=
  let axes := positionsOf st.2 label
  ((axes.drop 1).reverse).foldl (fun s axis => collapseStep s (axes.headD 0) axis) st

/-- SingleViewCalculator (construction plus __call__): for each distinct
label of the subscript whose count in the original subscript is not one,
collapse its repetitions into a diagonal.  The source iterates a Python
set of labels, whose order is unspecified; the model fixes
first-occurrence order. -/
def SingleViewCalculator (ioperand : Tensor) (subscript : List Char) :
    Tensor × List Char :=
  (dedupFirst subscript).foldl
    (fun st label => if subscript.count label = 1 then st else collapseLabel st label)
    (ioperand, subscript)

/-- SummedViewCalculator (construction plus __call__): sum away every
axis whose label is absent from the output subscript, cast the sum back
to the input's dtype, and delete the summed labels from the subscript. -/
def SummedViewCalculator (ioperand : Tensor) (input_subscript output_subscript : List Char) :
    Tensor × List Char :=
  let label_to_summed :=
    (dedupFirst input_subscript).filter (fun c => !output_subscript.contains c)
  let axes_to_summed :=
    (List.range input_subscript.length).filter
      (fun i => label_to_summed.contains (input_subscript.getD i ' '))
  let result :=
    if axes_to_summed.isEmpty then ioperand
    else (ioperand.sumAxes axes_to_summed).astype ioperand.dtype
  let subscript :=
    label_to_summed.foldl (fun s label => s.filter (fun c => c ≠ label)) input_subscript
  (result, subscript)

/-- TransposedViewCalculator (construction plus __call__): find each
output label's position in the input subscript; if the position list is
already sorted return the operand itself, otherwise transpose by it.
The source's str.find yields -1 for an absent label; the asserted
precondition (equal label sets) makes that unreachable, and the model's
indexOf likewise never misses there. -/
def TransposedViewCalculator (ioperand : Tensor) (input_subscript output_subscript : List Char) :
    Tensor :=
  let transpose_orders := output_subscript.map (fun label => input_subscript.indexOf label)
  if transpose_orders = List.insertionSort (· ≤ ·) transpose_orders then ioperand
  else ioperand.transpose transpose_orders

/-- Placeholder head for the (unreachable) empty-operand case of
CombinedViewCalculator. -/
def defaultTensor : Tensor := ⟨DType.float64, [], fun _ => 0⟩

/-- CombinedViewCalculator (construction plus __call__): left fold of the
outer product over the operands, with the concatenated subscript. -/
def CombinedViewCalculator (ioperands : List Tensor) (subscripts : List (List Char)) :
    Tensor × List Char :=
  (match ioperands with
    | [] => defaultTensor
    | t :: rest => rest.foldl (fun acc x => acc.tensordot x) t,
   subscripts.foldl (fun acc s => acc ++ s) [])

/-- Dummy labels of a label list: those occurring at least twice
(get_dummy_labels of the source, a set modelled in first-occurrence
order). -/
def get_dummy_labels (label_list : List Char) : List Char :=
  (dedupFirst label_list).filter (fun c => decide (2 ≤ label_list.count c))

/-- Characters the subscript string may contain after the ellipsis check:
ASCII letters, the arrow characters and the comma. -/
def isRegularChar (c : Char) : Bool :=
  c.isAlpha || c == '-' || c == '>' || c == ','

/-- Split a subscript string at commas, Python str.split semantics (the
empty string yields one empty piece, a trailing comma yields a trailing
empty piece). -/
def splitOnComma : List Char → List (List Char)
  | [] => [[]]
  | c :: t =>
    if c = ',' then [] :: splitOnComma t
    else
      match splitOnComma t with
      | [] => [[c]]
      | h :: r => (c :: h) :: r

/-- Observable effects of an einsum call, recorded in order: conversion
of operand i to the common dtype (the astype/asarray loop of the source),
and the invocation of a view-calculator pipeline stage. -/
inductive Event where
  | convert (i : Nat) (d : DType)
  | stage
deriving DecidableEq

/-- The validation failures of the einsum entry point, one constructor
per distinct raise site message of the source. -/
inductive EinsumErr where
  | ellipsisUnsupported
  | invalidSubscript (c : Char)
  | dtypeResolutionFailure
  | malformedArrow
  | unknownOutputLabel (c : Char)
  | repeatedOutputLabel (c : Char)
  | fewerOperandsMsg
  | moreOperandsMsg
  | tooManySubscripts (i : Nat)
  | tooFewSubscripts
deriving DecidableEq

/-- Rank checks and per-operand diagonal collapse: the loop over operands
of the einsum source, one stage event per SingleViewCalculator call. -/
def runSingleViews : List (List Char) → List Tensor → Nat →
    List Event × Except EinsumErr (List (Tensor × List Char))
  | [], _, _ => ([], Except.ok [])
  | _ :: _, [], _ => ([], Except.ok [])
  | sub :: subs, t :: ts, i =>
    if sub.length > t.ndim then ([], Except.error (EinsumErr.tooManySubscripts i))
    else if sub.length < t.ndim then ([], Except.error EinsumErr.tooFewSubscripts)
    else
      let r := SingleViewCalculator t sub
      let (evs, rest) := runSingleViews subs ts (i + 1)
      (Event.stage :: evs,
        match rest with
        | Except.error e => Except.error e
        | Except.ok l => Except.ok (r :: l))

/-- The back half of einsum, after the output subscript is known: operand
count checks, per-operand diagonal collapse, outer-product combination
with a second diagonal collapse, summation and final transposition. -/
def einsumPipeline (evs0 : List Event) (converted_inputs : List Tensor)
    (input_subscripts output_subscript : List Char) :
    List Event × Except EinsumErr Tensor :=
  let input_subscripts_list := splitOnComma input_subscripts
  if input_subscripts_list.length < converted_inputs.length then
    (evs0, Except.error EinsumErr.fewerOperandsMsg)
  else if input_subscripts_list.length > converted_inputs.length then
    (evs0, Except.error EinsumErr.moreOperandsMsg)
  else
    match runSingleViews input_subscripts_list converted_inputs 0 with
    | (evs1, Except.error e) => (evs0 ++ evs1, Except.error e)
    | (evs1, Except.ok i_parsers) =>
      let (evs2, combined) :=
        if 2 ≤ converted_inputs.length then
          let c1 := CombinedViewCalculator (i_parsers.map Prod.fst) (i_parsers.map Prod.snd)
          let c2 := SingleViewCalculator c1.1 c1.2
          ([Event.stage, Event.stage], c2)
        else ([], i_parsers.headD (defaultTensor, []))
      let sv := SummedViewCalculator combined.1 combined.2 output_subscript
      let tv := TransposedViewCalculator sv.1 sv.2 output_subscript
      (evs0 ++ evs1 ++ evs2 ++ [Event.stage, Event.stage], Except.ok tv)

/-- The arrow phase of einsum, after character validation and operand
conversion: split off the explicit output subscript or derive the
implicit one, validating output labels. -/
def einsumArrowPhase (evs0 : List Event) (converted_inputs : List Tensor)
    (subscripts : List Char) : List Event × Except EinsumErr Tensor :=
  let pos : Int :=
    match subscripts.findIdx? (fun c => c == '-') with
    | some p => (p : Int)
    | none => -1
  if pos = (subscripts.length : Int) - 1 then
    (evs0, Except.error EinsumErr.malformedArrow)
  else if pos ≠ -1 ∧ subscripts.getD (pos.toNat + 1) ' ' ≠ '>' then
    (evs0, Except.error EinsumErr.malformedArrow)
  else
    let arrow_pos : Option Nat :=
      (List.range subscripts.length).find?
        (fun i => subscripts.getD i ' ' == '-' && subscripts.getD (i + 1) ' ' == '>')
    match arrow_pos with
    | none =>
      let label_list := subscripts.filter (fun c => c ≠ ',')
      let output_subscript :=
        List.insertionSort (· ≤ ·)
          ((dedupFirst label_list).filter (fun c => !(get_dummy_labels label_list).contains c))
      einsumPipeline evs0 converted_inputs subscripts output_subscript
    | some ap =>
      let input_subscripts := subscripts.take ap
      let output_subscript := subscripts.drop (ap + 2)
      match output_subscript.find? (fun c => !input_subscripts.contains c) with
      | some c => (evs0, Except.error (EinsumErr.unknownOutputLabel c))
      | none =>
        match (dedupFirst output_subscript).find?
            (fun c => decide (2 ≤ output_subscript.count c)) with
        | some c => (evs0, Except.error (EinsumErr.repeatedOutputLabel c))
        | none => einsumPipeline evs0 converted_inputs input_subscripts output_subscript

/-- The einsum entry point of the source, over a subscripts string (as a
character list) and the operand arrays, returning the trace of observable
effects together with the result or the validation error.  The two purely
dynamic Python checks (missing arguments, non-string subscripts) have no
counterpart in this typed model. -/
def einsum (subscripts0 : List Char) (ioperands : List Tensor) :
    List Event × Except EinsumErr Tensor :=
  if subscripts0.contains '.' then ([], Except.error EinsumErr.ellipsisUnsupported)
  else
    let subscripts := subscripts0.filter (fun c => c ≠ ' ')
    match subscripts.find? (fun c => !isRegularChar c) with
    | some c => ([], Except.error (EinsumErr.invalidSubscript c))
    | none =>
      match result_type ioperands with
      | none => ([], Except.error EinsumErr.dtypeResolutionFailure)
      | some dtype =>
        let converted_inputs := ioperands.map (fun a => a.astype dtype)
        let evs0 := (List.range ioperands.length).map (fun i => Event.convert i dtype)
        einsumArrowPhase evs0 converted_inputs subscripts

/-- The result component of an einsum call. -/
def einsumResult (subscripts : List Char) (ioperands : List Tensor) :
    Except EinsumErr Tensor :=
  (einsum subscripts ioperands).2

/-- The trace component of an einsum call. -/
def einsumEvents (subscripts : List Char) (ioperands : List Tensor) : List Event :=
  (einsum subscripts ioperands).1

/-!  Specification-side definitions, written from the spec's words, to be
compared with what the embedded source computes.  -/

/-- Spec-side definition: the standard matrix product of an (m,n) matrix
and an (n,p) matrix, in the common promoted dtype. -/
def matmulSpec (m n p : Nat) (dA dB : DType) (f g : List Nat → Int) : Tensor :=
  ⟨promote dA dB, [m, p],
    fun idx => Finset.sum (Finset.range n) (fun k => f [idx.getD 0 0, k] * g [k, idx.getD 1 0])⟩

/-- Spec-side definition: the length-n vector of the diagonal entries
A[k,k] of a square matrix. -/
def diagVectorSpec (d : DType) (f : List Nat → Int) (n : Nat) : Tensor :=
  ⟨d, [n], fun idx => f [idx.getD 0 0, idx.getD 0 0]⟩

/-- Spec-side definition: the axis order that sorts a subscript's labels
ascending — position k of the result is the axis of the k-th smallest
label. -/
def ascendingOrdersSpec (sub : List Char) : List Nat :=
  (List.insertionSort (· ≤ ·) sub).map (fun c => sub.indexOf c)

/-- Spec-side definition: the implicit output subscript — the labels
occurring exactly once across the inputs, sorted ascending. -/
def sortedOnceLabelsSpec (l : List Char) : List Char :=
  List.insertionSort (· ≤ ·) (l.filter (fun c => l.count c == 1))

/-- The implicit-output computation of the source (the no-arrow branch of
einsum), as its own definition for statements about it. -/
def implicitOutputSubscript (label_list : List Char) : List Char :=
  List.insertionSort (· ≤ ·)
    ((dedupFirst label_list).filter (fun c => !(get_dummy_labels label_list).contains c))

/-!  Concrete tensors for counterexamples and witnesses.  -/

/-- A concrete 2x2 int64 matrix. -/
def t22 : Tensor := ⟨DType.int64, [2, 2], fun idx => (idx.getD 0 0) * 2 + idx.getD 1 0 + 1⟩

/-- A concrete length-3 int64 vector. -/
def t3 : Tensor := ⟨DType.int64, [3], fun idx => idx.getD 0 0 + 1⟩

/-- A concrete 0-dimensional int64 scalar array. -/
def t0d : Tensor := ⟨DType.int64, [], fun _ => 7⟩

/-- The validation errors raised by the einsum entry point after operand
conversion but before any view-calculator stage: malformed arrow, unknown
or repeated output label, and the two operand-count mismatches. -/
def isPreStageErr : EinsumErr → Bool
  | .malformedArrow => true
  | .unknownOutputLabel _ => true
  | .repeatedOutputLabel _ => true
  | .fewerOperandsMsg => true
  | .moreOperandsMsg => true
  | _ => false

/-- Promotion of a dtype with itself is the identity. -/
theorem promote_self (d : DType) : promote d d = d := by
  simp [promote]

/-- C10: calling einsum with a subscripts string but zero operand arrays
fails during common-element-type resolution (numpy.result_type of nothing),
before the operand-count comparison is reached, so the caller never sees
an operand-count-mismatch error for this input shape. -/
theorem einsum_no_operands_dtype_error :
    einsumResult ['i', 'j'] [] = Except.error EinsumErr.dtypeResolutionFailure := rfl

/-- C6 (code bug): with one operand and two comma-separated subscripts the
source raises the error whose message reads "more operands provided …"
(and conversely the "fewer operands provided …" message fires when there
are more operands than subscripts) — the two operand-count messages are
swapped relative to the actual mismatch direction. -/
theorem einsum_operand_count_messages_swapped :
    einsumResult ['i', 'j', ',', 'j', 'k'] [t22] = Except.error EinsumErr.moreOperandsMsg ∧
    einsumResult ['i', 'j'] [t22, t22] = Except.error EinsumErr.fewerOperandsMsg :=
  ⟨rfl, rfl⟩

/-- C2: einsum 'ii->i' on a square matrix of shape (n,n) yields the
length-n vector of the diagonal entries A[k,k]. -/
theorem einsum_diagonal_law (n : Nat) (d : DType) (f : List Nat → Int) :
    ∃ t, einsumResult ['i', 'i', '-', '>', 'i'] [⟨d, [n, n], f⟩] = Except.ok t ∧
      Tensor.eqv t (diagVectorSpec d f n) := by
  have hres : einsumResult ['i', 'i', '-', '>', 'i'] [⟨d, [n, n], f⟩] =
      Except.ok (((⟨d, [n, n], f⟩ : Tensor).diagonal 1 0).rollaxisLast 0) := rfl
  refine ⟨_, hres, rfl, ?_, ?_⟩
  · simp [diagVectorSpec, Tensor.diagonal, Tensor.rollaxisLast, Tensor.ndim,
      insertAt, Nat.min_self]
  · intro idx hv
    rcases hv with _ | ⟨h1, hv'⟩
    rcases hv' with _ | _
    simp [diagVectorSpec, Tensor.diagonal, Tensor.rollaxisLast, Tensor.ndim, insertAt]

set_option maxHeartbeats 1600000 in
/-- C1: einsum 'ij,jk->ik' on matrices of shapes (m,n) and (n,p) equals
the standard matrix product, for every m, n, p: the pipeline of
per-operand diagonal collapse, outer-product combination, diagonal
collapse of the combined result, summation of the non-output label and
final transposition realizes contraction. -/
theorem einsum_matmul_law (m n p : Nat) (dA dB : DType) (f g : List Nat → Int) :
    ∃ t, einsumResult ['i', 'j', ',', 'j', 'k', '-', '>', 'i', 'k']
        [⟨dA, [m, n], f⟩, ⟨dB, [n, p], g⟩] = Except.ok t ∧
      Tensor.eqv t (matmulSpec m n p dA dB f g) := by
  have hpipe : einsumResult ['i', 'j', ',', 'j', 'k', '-', '>', 'i', 'k']
      [⟨dA, [m, n], f⟩, ⟨dB, [n, p], g⟩] =
      (einsumPipeline [Event.convert 0 (promote dA dB), Event.convert 1 (promote dA dB)]
        [⟨promote dA dB, [m, n], f⟩, ⟨promote dA dB, [n, p], g⟩]
        ['i', 'j', ',', 'j', 'k'] ['i', 'k']).2 := rfl
  have hrs : runSingleViews [['i', 'j'], ['j', 'k']]
      [⟨promote dA dB, [m, n], f⟩, ⟨promote dA dB, [n, p], g⟩] 0 =
      ([Event.stage, Event.stage],
        Except.ok [((⟨promote dA dB, [m, n], f⟩ : Tensor), ['i', 'j']),
          ((⟨promote dA dB, [n, p], g⟩ : Tensor), ['j', 'k'])]) := rfl
  have hcomb : SingleViewCalculator
      (Tensor.tensordot ⟨promote dA dB, [m, n], f⟩ ⟨promote dA dB, [n, p], g⟩)
      ['i', 'j', 'j', 'k'] =
      (((Tensor.tensordot ⟨promote dA dB, [m, n], f⟩
          ⟨promote dA dB, [n, p], g⟩).diagonal 2 1).rollaxisLast 1, ['i', 'j', 'k']) := rfl
  have hres : einsumResult ['i', 'j', ',', 'j', 'k', '-', '>', 'i', 'k']
      [⟨dA, [m, n], f⟩, ⟨dB, [n, p], g⟩] =
      Except.ok (Tensor.astype
        (Tensor.sumAxes
          (((Tensor.tensordot ⟨promote dA dB, [m, n], f⟩ ⟨promote dA dB, [n, p], g⟩).diagonal
              2 1).rollaxisLast 1) [1])
        (promote (promote dA dB) (promote dA dB))) := by
    rw [hpipe, einsumPipeline]
    have hsplit : splitOnComma ['i', 'j', ',', 'j', 'k'] = [['i', 'j'], ['j', 'k']] := rfl
    rw [hsplit, hrs]
    simp only [List.length_cons, List.length_nil, CombinedViewCalculator, List.map_cons,
      List.map_nil, List.foldl_cons, List.foldl_nil]
    norm_num [SummedViewCalculator, TransposedViewCalculator, dedupFirst, dedupFirstAux]
    rw [hcomb]
    rfl
  refine ⟨_, hres, ?_, ?_, ?_⟩
  · exact promote_self (promote dA dB)
  · simp [matmulSpec, Tensor.sumAxes, Tensor.sumAxis, Tensor.tensordot, Tensor.diagonal,
      Tensor.rollaxisLast, Tensor.astype, Tensor.ndim, insertAt]
  · intro idx hv
    rcases hv with _ | ⟨ha, hv'⟩
    rcases hv' with _ | ⟨hc, hv''⟩
    rcases hv'' with _ | _
    simp [matmulSpec, Tensor.sumAxes, Tensor.sumAxis, Tensor.tensordot, Tensor.diagonal,
      Tensor.rollaxisLast, Tensor.astype, Tensor.ndim, insertAt, Nat.min_self]

/-- C5 counterexample: the expression 'i->-' ends in a '-' that is not
followed by '>', yet einsum does not raise the malformed-arrow error for
it: the second '-' lands in the output subscript and is reported as an
unknown output label instead.  Only the first '-' occurrence is checked. -/
theorem einsum_second_dash_not_malformed :
    einsumResult ['i', '-', '>', '-'] [t3] =
      Except.error (EinsumErr.unknownOutputLabel '-') := rfl

/-- C5 amended: the malformed-arrow check applies to the first occurrence
of '-' in the (space-stripped) expression: whenever the earlier checks
pass and the first '-' is the final character or is not immediately
followed by '>', einsum fails with the malformed-arrow error. -/
theorem einsum_malformed_first_dash (s : List Char) (ops : List Tensor) (d : DType) (p : Nat)
    (hdot : s.contains '.' = false)
    (hreg : (s.filter (fun c => c ≠ ' ')).find? (fun c => !isRegularChar c) = none)
    (hdt : result_type ops = some d)
    (hfind : (s.filter (fun c => c ≠ ' ')).findIdx? (fun c => c == '-') = some p)
    (hbad : p + 1 = (s.filter (fun c => c ≠ ' ')).length ∨
      (s.filter (fun c => c ≠ ' ')).getD (p + 1) ' ' ≠ '>') :
    einsumResult s ops = Except.error EinsumErr.malformedArrow := by
  simp only [einsumResult, einsum, hdot, Bool.false_eq_true, if_false, hreg, hdt,
    einsumArrowPhase, hfind]
  rcases hbad with hlast | hmid
  · rw [if_pos (by omega)]
  · by_cases h1 : (p : Int) = ((s.filter (fun c => c ≠ ' ')).length : Int) - 1
    · rw [if_pos h1]
    · rw [if_neg h1, if_pos ⟨by omega, by simpa using hmid⟩]

/-- C5 amended witness: 'ij-' ends in an unfollowed '-' at position 2 and
is rejected with the malformed-arrow error. -/
theorem einsum_malformed_first_dash_witness :
    einsumResult ['i', 'j', '-'] [t3] = Except.error EinsumErr.malformedArrow :=
  einsum_malformed_first_dash ['i', 'j', '-'] [t3] DType.int64 2 rfl rfl rfl rfl
    (Or.inl rfl)

/-- C9: when the input and output subscripts agree and the label-position
list is already ascending, TransposedViewCalculator returns the operand
itself unchanged (no new view or copy); otherwise it transposes by the
position of each output label in the input subscript. -/
theorem transpose_identity_no_op (t : Tensor) (inSub outSub : List Char) :
    (inSub = outSub →
      List.Sorted (· ≤ ·) (outSub.map (fun label => inSub.indexOf label)) →
      TransposedViewCalculator t inSub outSub = t) ∧
    (¬ List.Sorted (· ≤ ·) (outSub.map (fun label => inSub.indexOf label)) →
      TransposedViewCalculator t inSub outSub =
        t.transpose (outSub.map (fun label => inSub.indexOf label))) := by
  constructor
  · intro _ hsort
    unfold TransposedViewCalculator
    rw [if_pos (List.Sorted.insertionSort_eq hsort).symm]
  · intro hns
    unfold TransposedViewCalculator
    rw [if_neg]
    intro heq
    exact hns (heq ▸ List.sorted_insertionSort (· ≤ ·) _)

/-- C9 witness: on a concrete operand with identical one-label subscripts
the calculator is the identity. -/
theorem transpose_identity_no_op_witness :
    TransposedViewCalculator t22 ['i', 'j'] ['i', 'j'] = t22 :=
  (transpose_identity_no_op t22 ['i', 'j'] ['i', 'j']).1 rfl (by decide)

/-- Folding the diagonal step over any position list never changes the
dtype: diagonal and rollaxis both copy it. -/
theorem foldl_collapseStep_dtype (first : Nat) :
    ∀ (l : List Nat) (st : Tensor × List Char),
      (l.foldl (fun s axis => collapseStep s first axis) st).1.dtype = st.1.dtype := by
  intro l
  induction l with
  | nil => intro st; rfl
  | cons a l ih => intro st; rw [List.foldl_cons, ih]; rfl

/-- Collapsing one label preserves the dtype. -/
theorem collapseLabel_dtype (st : Tensor × List Char) (label : Char) :
    (collapseLabel st label).1.dtype = st.1.dtype :=
  foldl_collapseStep_dtype _ _ _

/-- The label fold of SingleViewCalculator preserves the dtype of the
state, for any fixed original subscript and any label list. -/
theorem svcFold_dtype (sub0 : List Char) :
    ∀ (labels : List Char) (st : Tensor × List Char),
      ((labels.foldl
          (fun st label => if sub0.count label = 1 then st else collapseLabel st label)
          st).1.dtype) = st.1.dtype := by
  intro labels
  induction labels with
  | nil => intro st; rfl
  | cons a l ih =>
    intro st
    rw [List.foldl_cons, ih]
    by_cases h : sub0.count a = 1
    · rw [if_pos h]
    · rw [if_neg h]; exact collapseLabel_dtype st a

/-- SingleViewCalculator preserves the dtype. -/
theorem SingleViewCalculator_dtype (t : Tensor) (sub : List Char) :
    (SingleViewCalculator t sub).1.dtype = t.dtype :=
  svcFold_dtype sub (dedupFirst sub) (t, sub)

/-- SummedViewCalculator casts its summed result back to the dtype of its
own input, so its output dtype equals its input dtype. -/
theorem SummedViewCalculator_dtype (t : Tensor) (i o : List Char) :
    (SummedViewCalculator t i o).1.dtype = t.dtype := by
  simp only [SummedViewCalculator]
  split
  · rfl
  · rfl

/-- TransposedViewCalculator preserves the dtype. -/
theorem TransposedViewCalculator_dtype (t : Tensor) (i o : List Char) :
    (TransposedViewCalculator t i o).dtype = t.dtype := by
  simp only [TransposedViewCalculator]
  split
  · rfl
  · rfl

/-- Folding the outer product over operands of a common dtype yields that
dtype, since promotion is idempotent. -/
theorem foldl_tensordot_dtype (d : DType) :
    ∀ (l : List Tensor) (t : Tensor), t.dtype = d → (∀ x ∈ l, x.dtype = d) →
      (l.foldl (fun acc x => acc.tensordot x) t).dtype = d := by
  intro l
  induction l with
  | nil => intro t ht _; exact ht
  | cons a l ih =>
    intro t ht hl
    rw [List.foldl_cons]
    refine ih _ ?_ (fun x hx => hl x (List.mem_cons_of_mem _ hx))
    show promote t.dtype a.dtype = d
    rw [ht, hl a (List.mem_cons_self _ _), promote_self]

/-- splitOnComma always yields at least one piece. -/
theorem splitOnComma_ne_nil (l : List Char) : splitOnComma l ≠ [] := by
  induction l with
  | nil => simp [splitOnComma]
  | cons c t ih =>
    simp only [splitOnComma]
    by_cases h : c = ','
    · rw [if_pos h]; simp
    · rw [if_neg h]
      rcases hs : splitOnComma t with _ | ⟨h1, r⟩
      · simp
      · simp

/-- On success the per-operand loop yields one collapsed pair per
operand, each of the common dtype. -/
theorem runSingleViews_ok_spec (d : DType) :
    ∀ (subs : List (List Char)) (ts : List Tensor) (i : Nat) (evs : List Event)
      (l : List (Tensor × List Char)),
      runSingleViews subs ts i = (evs, Except.ok l) →
      (∀ t ∈ ts, t.dtype = d) →
      subs.length = ts.length →
      l.length = ts.length ∧ ∀ x ∈ l, x.1.dtype = d := by
  intro subs
  induction subs with
  | nil =>
    intro ts i evs l h hd hlen
    cases ts with
    | nil =>
      simp only [runSingleViews, Prod.mk.injEq, Except.ok.injEq] at h
      rw [← h.2]
      simp
    | cons t ts => simp at hlen
  | cons s subs ih =>
    intro ts i evs l h hd hlen
    cases ts with
    | nil => simp at hlen
    | cons t ts =>
      simp only [runSingleViews] at h
      split at h
      · simp at h
      · split at h
        · simp at h
        · rcases hr : runSingleViews subs ts (i + 1) with ⟨evs1, rest1⟩
          rw [hr] at h
          simp only at h
          cases rest1 with
          | error e => simp at h
          | ok l1 =>
            simp only [Prod.mk.injEq, Except.ok.injEq] at h
            obtain ⟨hl, htl⟩ := ih ts (i + 1) evs1 l1 (by rw [hr])
              (fun x hx => hd x (List.mem_cons_of_mem _ hx)) (by simpa using hlen)
            rw [← h.2]
            constructor
            · simp [hl]
            · intro x hx
              rcases List.mem_cons.mp hx with hx1 | hx2
              · rw [hx1, SingleViewCalculator_dtype]
                exact hd t (List.mem_cons_self _ _)
              · exact htl x hx2

/-- A successful run of the back half of einsum produces a result of the
common operand dtype. -/
theorem einsumPipeline_ok_dtype (d : DType) (evs0 : List Event) (ops : List Tensor)
    (insubs out : List Char) (t : Tensor)
    (hops : ∀ x ∈ ops, x.dtype = d)
    (h : (einsumPipeline evs0 ops insubs out).2 = Except.ok t) :
    t.dtype = d := by
  simp only [einsumPipeline] at h
  split at h
  · simp at h
  · split at h
    · simp at h
    · rcases hr : runSingleViews (splitOnComma insubs) ops 0 with ⟨evs1, rest1⟩
      rw [hr] at h
      cases rest1 with
      | error e => simp at h
      | ok i_parsers =>
        simp only at h
        have hcount : (splitOnComma insubs).length = ops.length := by omega
        obtain ⟨hlen, hdt⟩ := runSingleViews_ok_spec d (splitOnComma insubs) ops 0
          evs1 i_parsers (by rw [hr]) hops hcount
        by_cases h2 : 2 ≤ ops.length
        · rw [if_pos h2] at h
          cases i_parsers with
          | nil => rw [List.length_nil] at hlen; omega
          | cons x rest =>
            simp only [Prod.mk.injEq, Except.ok.injEq, List.map_cons,
              CombinedViewCalculator] at h
            rw [← h, TransposedViewCalculator_dtype, SummedViewCalculator_dtype,
              SingleViewCalculator_dtype]
            refine foldl_tensordot_dtype d _ _ ?_ ?_
            · exact hdt x (List.mem_cons_self _ _)
            · intro y hy
              obtain ⟨z, hz, hzy⟩ := List.mem_map.mp hy
              rw [← hzy]
              exact hdt z (List.mem_cons_of_mem _ hz)
        · rw [if_neg h2] at h
          cases i_parsers with
          | nil =>
            have : 0 < (splitOnComma insubs).length :=
              List.length_pos.mpr (splitOnComma_ne_nil insubs)
            rw [List.length_nil] at hlen
            omega
          | cons x rest =>
            simp only [Prod.mk.injEq, Except.ok.injEq, List.headD_cons] at h
            rw [← h, TransposedViewCalculator_dtype, SummedViewCalculator_dtype]
            exact hdt x (List.mem_cons_self _ _)

/-- A successful run of the arrow phase produces a result of the common
operand dtype. -/
theorem einsumArrowPhase_ok_dtype (d : DType) (evs0 : List Event) (ops : List Tensor)
    (s : List Char) (t : Tensor) (hops : ∀ x ∈ ops, x.dtype = d)
    (h : (einsumArrowPhase evs0 ops s).2 = Except.ok t) : t.dtype = d := by
  simp only [einsumArrowPhase] at h
  split at h
  · simp at h
  · split at h
    · simp at h
    · split at h
      · exact einsumPipeline_ok_dtype d _ _ _ _ _ hops h
      · split at h
        · simp at h
        · split at h
          · simp at h
          · exact einsumPipeline_ok_dtype d _ _ _ _ _ hops h

/-- C7: einsum resolves the common numeric dtype of all its operands,
converts every operand to it before processing, and a successful result
carries exactly that dtype; moreover the summation stage casts its result
back to the dtype of its own input even though summation may upcast
internally. -/
theorem einsum_common_dtype :
    (∀ (s : List Char) (ops : List Tensor) (d : DType) (t : Tensor),
      result_type ops = some d → einsumResult s ops = Except.ok t → t.dtype = d) ∧
    (∀ (a : Tensor) (d : DType), (a.astype d).dtype = d) ∧
    (∀ (t : Tensor) (i o : List Char), (SummedViewCalculator t i o).1.dtype = t.dtype) := by
  refine ⟨?_, fun a d => rfl, SummedViewCalculator_dtype⟩
  intro s ops d t hd h
  simp only [einsumResult, einsum] at h
  split at h
  · simp at h
  · split at h
    · simp at h
    · rw [hd] at h
      simp only at h
      refine einsumArrowPhase_ok_dtype d _ _ _ _ ?_ h
      intro x hx
      obtain ⟨a, _, ha⟩ := List.mem_map.mp hx
      rw [← ha]
      rfl

/-- C7 witness: a one-operand float32 call resolves the common dtype to
float32 and returns a float32 result. -/
theorem einsum_common_dtype_witness :
    (Tensor.astype ⟨DType.float32, [3], fun idx => idx.getD 0 0 + 1⟩ DType.float32).dtype =
      DType.float32 :=
  einsum_common_dtype.1 ['i'] [⟨DType.float32, [3], fun idx => idx.getD 0 0 + 1⟩]
    DType.float32 _ rfl rfl

/-- The errors of the per-operand loop are exactly the rank-mismatch
errors, which are not in the pre-stage class. -/
theorem runSingleViews_error_rank :
    ∀ (subs : List (List Char)) (ts : List Tensor) (i : Nat) (evs : List Event)
      (e : EinsumErr),
      runSingleViews subs ts i = (evs, Except.error e) → isPreStageErr e = false := by
  intro subs
  induction subs with
  | nil =>
    intro ts i evs e h
    cases ts <;> simp [runSingleViews] at h
  | cons s subs ih =>
    intro ts i evs e h
    cases ts with
    | nil => simp [runSingleViews] at h
    | cons t ts =>
      simp only [runSingleViews] at h
      split at h
      · simp only [Prod.mk.injEq, Except.error.injEq] at h
        rw [← h.2]
        rfl
      · split at h
        · simp only [Prod.mk.injEq, Except.error.injEq] at h
          rw [← h.2]
          rfl
        · rcases hr : runSingleViews subs ts (i + 1) with ⟨evs1, rest1⟩
          rw [hr] at h
          cases rest1 with
          | error e1 =>
            simp only [Prod.mk.injEq, Except.error.injEq] at h
            rw [← h.2]
            exact ih ts (i + 1) evs1 e1 (by rw [hr])
          | ok l1 => simp at h

/-- When the back half of einsum fails with a pre-stage validation error,
it has appended no event to the incoming trace. -/
theorem einsumPipeline_error_events (evs0 : List Event) (ops : List Tensor)
    (insubs out : List Char) (evs : List Event) (e : EinsumErr)
    (h : einsumPipeline evs0 ops insubs out = (evs, Except.error e))
    (hpre : isPreStageErr e = true) : evs = evs0 := by
  simp only [einsumPipeline] at h
  split at h
  · simp only [Prod.mk.injEq] at h
    exact h.1.symm
  · split at h
    · simp only [Prod.mk.injEq] at h
      exact h.1.symm
    · rcases hr : runSingleViews (splitOnComma insubs) ops 0 with ⟨evs1, rest1⟩
      rw [hr] at h
      cases rest1 with
      | error e1 =>
        simp only [Prod.mk.injEq, Except.error.injEq] at h
        have := runSingleViews_error_rank (splitOnComma insubs) ops 0 evs1 e1 (by rw [hr])
        rw [h.2] at this
        rw [this] at hpre
        cases hpre
      | ok l1 =>
        simp only at h
        simp only [Prod.mk.injEq] at h
        cases h.2

/-- When the arrow phase fails with a pre-stage validation error, the
trace is exactly the incoming one (the conversion events). -/
theorem einsumArrowPhase_error_events (evs0 : List Event) (ops : List Tensor)
    (s : List Char) (evs : List Event) (e : EinsumErr)
    (h : einsumArrowPhase evs0 ops s = (evs, Except.error e))
    (hpre : isPreStageErr e = true) : evs = evs0 := by
  simp only [einsumArrowPhase] at h
  split at h
  · simp only [Prod.mk.injEq] at h
    exact h.1.symm
  · split at h
    · simp only [Prod.mk.injEq] at h
      exact h.1.symm
    · split at h
      · exact einsumPipeline_error_events _ _ _ _ _ _ h hpre
      · split at h
        · simp only [Prod.mk.injEq] at h
          exact h.1.symm
        · split at h
          · simp only [Prod.mk.injEq] at h
            exact h.1.symm
          · exact einsumPipeline_error_events _ _ _ _ _ _ h hpre

/-- C4 counterexample: for the malformed expression 'ij-' the validation
error is raised only after the operand has already been converted to the
common element type — the conversion effect is in the trace before the
error surfaces, refuting "before any operand is converted". -/
theorem einsum_converts_before_validation :
    einsumResult ['i', 'j', '-'] [t22] = Except.error EinsumErr.malformedArrow ∧
    Event.convert 0 DType.int64 ∈ einsumEvents ['i', 'j', '-'] [t22] := by
  constructor
  · rfl
  · have h : einsumEvents ['i', 'j', '-'] [t22] = [Event.convert 0 DType.int64] := rfl
    rw [h]
    exact List.mem_singleton.mpr rfl

/-- C4 amended: the validation errors for a malformed arrow, an unknown
or repeated output label, and an operand-count mismatch are raised after
operand conversion but before any view-calculator stage runs: whenever
einsum fails with one of them, the trace holds no stage event (only
conversion events); rank-mismatch errors are outside this guarantee, as
they can follow the diagonal collapse of earlier operands. -/
theorem einsum_validation_before_stages (s : List Char) (ops : List Tensor)
    (e : EinsumErr) (herr : einsumResult s ops = Except.error e)
    (hpre : isPreStageErr e = true) :
    Event.stage ∉ einsumEvents s ops := by
  rcases hE : einsum s ops with ⟨evs, r⟩
  have hres : einsumResult s ops = r := by rw [einsumResult, hE]
  have hevs : einsumEvents s ops = evs := by rw [einsumEvents, hE]
  rw [hres] at herr
  rw [hevs]
  simp only [einsum] at hE
  split at hE <;> (try split at hE) <;> (try split at hE) <;>
    first
      | (simp only [Prod.mk.injEq] at hE
         rw [← hE.1]
         simp)
      | (rw [herr] at hE
         have h2 := einsumArrowPhase_error_events _ _ _ _ _ hE hpre
         rw [h2]
         intro hmem
         obtain ⟨i, _, hbad⟩ := List.mem_map.mp hmem
         cases hbad)

/-- C4 amended witness: the malformed 'ij-' call fails with no stage
event in its trace. -/
theorem einsum_validation_before_stages_witness :
    Event.stage ∉ einsumEvents ['i', 'j', '-'] [t22] :=
  einsum_validation_before_stages ['i', 'j', '-'] [t22] EinsumErr.malformedArrow rfl rfl

/-- Boolean membership agrees with propositional membership for
character lists. -/
theorem contains_eq_true_iff (l : List Char) (c : Char) :
    l.contains c = true ↔ c ∈ l := by
  induction l with
  | nil => simp [List.contains_nil]
  | cons a t ih => rw [List.contains_cons]; simp [ih]

/-- Everything produced by dedupFirstAux avoids the seen accumulator. -/
theorem dedupFirstAux_not_seen :
    ∀ (l seen : List Char) (c : Char), c ∈ dedupFirstAux seen l → c ∉ seen := by
  intro l
  induction l with
  | nil => intro seen c h; cases h
  | cons a t ih =>
    intro seen c h
    simp only [dedupFirstAux] at h
    by_cases ha : seen.contains a
    · rw [if_pos ha] at h
      exact ih seen c h
    · rw [if_neg ha] at h
      rcases List.mem_cons.mp h with rfl | h2
      · exact fun hc => ha ((contains_eq_true_iff seen c).mpr hc)
      · intro hc
        exact ih (a :: seen) c h2 (List.mem_cons_of_mem _ hc)

/-- Every unseen element of the list appears in dedupFirstAux. -/
theorem mem_dedupFirstAux_of :
    ∀ (l seen : List Char) (c : Char), c ∈ l → c ∉ seen → c ∈ dedupFirstAux seen l := by
  intro l
  induction l with
  | nil => intro seen c h; cases h
  | cons a t ih =>
    intro seen c h hs
    simp only [dedupFirstAux]
    by_cases ha : seen.contains a
    · rw [if_pos ha]
      rcases List.mem_cons.mp h with rfl | h2
      · exact absurd ((contains_eq_true_iff seen c).mp ha) hs
      · exact ih seen c h2 hs
    · rw [if_neg ha]
      rcases List.mem_cons.mp h with rfl | h2
      · exact List.mem_cons_self _ _
      · by_cases hc : c = a
        · rw [hc]; exact List.mem_cons_self _ _
        · refine List.mem_cons_of_mem _ (ih (a :: seen) c h2 ?_)
          intro hmem
          rcases List.mem_cons.mp hmem with h3 | h3
          · exact hc h3
          · exact hs h3

/-- dedupFirstAux produces a list without duplicates. -/
theorem nodup_dedupFirstAux : ∀ (l seen : List Char), (dedupFirstAux seen l).Nodup := by
  intro l
  induction l with
  | nil => intro seen; exact List.nodup_nil
  | cons a t ih =>
    intro seen
    simp only [dedupFirstAux]
    by_cases ha : seen.contains a
    · rw [if_pos ha]; exact ih seen
    · rw [if_neg ha]
      refine List.nodup_cons.mpr ⟨?_, ih (a :: seen)⟩
      intro hmem
      exact dedupFirstAux_not_seen t (a :: seen) a hmem (List.mem_cons_self _ _)

/-- dedupFirst produces a list without duplicates. -/
theorem nodup_dedupFirst (l : List Char) : (dedupFirst l).Nodup :=
  nodup_dedupFirstAux l []

/-- dedupFirst retains every element of its input. -/
theorem mem_dedupFirst_of (l : List Char) (c : Char) (h : c ∈ l) : c ∈ dedupFirst l :=
  mem_dedupFirstAux_of l [] c h (by simp)

/-- Erasing at an index decrements the count of the character stored
there and leaves every other count unchanged. -/
theorem count_eraseIdx :
    ∀ (l : List Char) (j : Nat), j < l.length → ∀ c,
      (l.eraseIdx j).count c = l.count c - (if l.getD j ' ' = c then 1 else 0) := by
  intro l
  induction l with
  | nil => intro j h; simp at h
  | cons a t ih =>
    intro j h c
    cases j with
    | zero =>
      simp only [List.eraseIdx_cons_zero, List.getD_cons_zero, List.count_cons]
      by_cases hc : a = c
      · rw [if_pos hc]
        simp [hc]
      · rw [if_neg hc]
        simp [hc]
    | succ j =>
      have hj : j < t.length := by simpa using h
      simp only [List.eraseIdx_cons_succ, List.getD_cons_succ, List.count_cons]
      rw [ih j hj c]
      by_cases hg : t.getD j ' ' = c
      · have hmem : c ∈ t := by
          rw [← hg, List.getD_eq_getElem?_getD, List.getElem?_eq_getElem hj]
          exact List.getElem_mem hj
        have hcnt : t.count c ≠ 0 := fun h0 => (List.count_eq_zero.mp h0) hmem
        rw [if_pos hg]
        by_cases hac : (a == c) = true <;> simp only [hac, if_true, if_false] <;> omega
      · rw [if_neg hg]
        simp

/-- Erasing at a later index leaves earlier entries in place. -/
theorem getD_eraseIdx_of_lt :
    ∀ (l : List Char) (i j : Nat), i < j → (l.eraseIdx j).getD i ' ' = l.getD i ' ' := by
  intro l
  induction l with
  | nil => intro i j _; rfl
  | cons a t ih =>
    intro i j hij
    cases j with
    | zero => omega
    | succ j =>
      rw [List.eraseIdx_cons_succ]
      cases i with
      | zero => rfl
      | succ i =>
        rw [List.getD_cons_succ, List.getD_cons_succ]
        exact ih i j (by omega)

/-- Inserting inside a list grows its length by one. -/
theorem length_insertAt (pos : Nat) (x : α) (l : List α) (h : pos ≤ l.length) :
    (insertAt pos x l).length = l.length + 1 := by
  simp only [insertAt, List.length_append, List.length_take, List.length_cons,
    List.length_drop]
  omega

/-- Membership in the position list of a label. -/
theorem mem_positionsOf (sub : List Char) (label : Char) (a : Nat) :
    a ∈ positionsOf sub label ↔ a < sub.length ∧ sub.getD a ' ' = label := by
  simp [positionsOf, List.mem_filter, List.mem_range]

/-- The position list of a label is strictly increasing. -/
theorem pairwise_positionsOf (sub : List Char) (label : Char) :
    (positionsOf sub label).Pairwise (· < ·) :=
  List.Pairwise.sublist (List.filter_sublist _) (List.pairwise_lt_range _)

/-- A label occurs at exactly as many positions as its count. -/
theorem length_positionsOf :
    ∀ (sub : List Char) (label : Char),
      (positionsOf sub label).length = sub.count label := by
  intro sub
  induction sub with
  | nil => intro label; rfl
  | cons a t ih =>
    intro label
    have hmap : List.filter (fun i => (a :: t).getD i ' ' == label)
        (List.map Nat.succ (List.range t.length)) =
        List.map Nat.succ (positionsOf t label) := by
      rw [List.filter_map]
      congr 1
    simp only [positionsOf, List.length_cons, List.range_succ_eq_map, List.filter_cons,
      List.getD_cons_zero, hmap, List.count_cons]
    by_cases hal : (a == label) = true
    · simp only [hal, if_true, List.length_cons, List.length_map]
      rw [← ih label]
      simp [positionsOf]
    · simp only [hal, Bool.false_eq_true, if_false, List.length_map]
      rw [← ih label]
      simp [positionsOf]

/-- Taking a diagonal between two valid distinct axes lowers the rank by
one. -/
theorem diagonal_ndim (t : Tensor) (axis1 axis2 : Nat) (h1 : axis2 < axis1)
    (h2 : axis1 < t.ndim) :
    (t.diagonal axis1 axis2).ndim = t.ndim - 1 := by
  simp only [Tensor.ndim] at h2
  simp only [Tensor.diagonal, Tensor.ndim]
  rw [Nat.max_eq_left h1.le, Nat.min_eq_right h1.le]
  have e1 : (t.shape.eraseIdx axis1).length = t.shape.length - 1 := by
    rw [List.length_eraseIdx, if_pos h2]
  have e2 : ((t.shape.eraseIdx axis1).eraseIdx axis2).length = t.shape.length - 2 := by
    rw [List.length_eraseIdx, e1, if_pos (by omega)]
    omega
  rw [List.length_append, e2]
  simp
  omega

/-- Rolling the last axis to a valid position preserves the rank. -/
theorem rollaxisLast_ndim (t : Tensor) (start : Nat) (h1 : start ≤ t.ndim - 1)
    (h2 : 1 ≤ t.ndim) :
    (t.rollaxisLast start).ndim = t.ndim := by
  simp only [Tensor.ndim] at h1 h2
  simp only [Tensor.rollaxisLast, Tensor.ndim]
  rw [length_insertAt]
  · rw [List.length_dropLast]; omega
  · rw [List.length_dropLast]; omega

/-- One diagonal step lowers the rank by exactly one when the two axes
are valid and distinct. -/
theorem collapseStep_ndim (st : Tensor × List Char) (first axis : Nat)
    (h1 : first < axis) (h2 : axis < st.1.ndim) :
    (collapseStep st first axis).1.ndim = st.1.ndim - 1 := by
  show ((st.1.diagonal axis first).rollaxisLast first).ndim = st.1.ndim - 1
  rw [rollaxisLast_ndim]
  · exact diagonal_ndim st.1 axis first h1 h2
  · rw [diagonal_ndim st.1 axis first h1 h2]; omega
  · rw [diagonal_ndim st.1 axis first h1 h2]; omega

/-- Folding the diagonal step over a strictly decreasing list of valid
positions of a label: the subscript length tracks the rank, shrinks by
the number of steps, and only that label's count is consumed. -/
theorem collapseChain (label : Char) (first : Nat) :
    ∀ (r : List Nat) (t : Tensor) (sub : List Char),
      r.Pairwise (· > ·) →
      (∀ a ∈ r, first < a ∧ a < sub.length ∧ sub.getD a ' ' = label) →
      sub.length = t.ndim →
      ((r.foldl (fun s axis => collapseStep s first axis) (t, sub)).2.length =
          (r.foldl (fun s axis => collapseStep s first axis) (t, sub)).1.ndim) ∧
      (r.foldl (fun s axis => collapseStep s first axis) (t, sub)).2.length =
          sub.length - r.length ∧
      (∀ c, (r.foldl (fun s axis => collapseStep s first axis) (t, sub)).2.count c =
          sub.count c - (if c = label then r.length else 0)) := by
  intro r
  induction r with
  | nil =>
    intro t sub _ _ hlen
    exact ⟨hlen, by simp, fun c => by simp⟩
  | cons a rest ih =>
    intro t sub hpw hmem hlen
    obtain ⟨hfa, halen, hga⟩ := hmem a (List.mem_cons_self _ _)
    have hpc := List.pairwise_cons.mp hpw
    rw [List.foldl_cons]
    have handim : a < t.ndim := hlen ▸ halen
    have hndim : (collapseStep (t, sub) first a).1.ndim = t.ndim - 1 :=
      collapseStep_ndim (t, sub) first a hfa handim
    have hlen1 : (sub.eraseIdx a).length = sub.length - 1 := by
      rw [List.length_eraseIdx, if_pos halen]
    have ihapp := ih (collapseStep (t, sub) first a).1 (sub.eraseIdx a)
      hpc.2
      (by
        intro b hb
        obtain ⟨hfb, hblen, hgb⟩ := hmem b (List.mem_cons_of_mem _ hb)
        have hba : b < a := hpc.1 b hb
        refine ⟨hfb, by omega, ?_⟩
        rw [getD_eraseIdx_of_lt sub b a hba]
        exact hgb)
      (by rw [hlen1, hndim, hlen])
    have hpair : collapseStep (t, sub) first a =
        ((collapseStep (t, sub) first a).1, sub.eraseIdx a) := rfl
    rw [hpair]
    refine ⟨ihapp.1, ?_, ?_⟩
    · rw [ihapp.2.1, hlen1, List.length_cons]
      omega
    · intro c
      rw [ihapp.2.2 c, count_eraseIdx sub a halen c, List.length_cons]
      by_cases hc : c = label
      · rw [if_pos hc, if_pos hc, if_pos (hc ▸ hga)]
        have hcnt : 1 ≤ sub.count c := by
          have hmemc : c ∈ sub := by
            rw [hc, ← hga, List.getD_eq_getElem?_getD, List.getElem?_eq_getElem halen]
            exact List.getElem_mem halen
          have := List.count_eq_zero.not.mpr (by simpa using hmemc)
          omega
        omega
      · rw [if_neg hc, if_neg hc, if_neg (fun hgc => hc (by rw [← hgc, hga]))]
        omega

/-- Collapsing one label reduces that label's count to at most one and
leaves every other count and the length/rank invariant intact. -/
theorem collapseLabel_spec (st : Tensor × List Char) (label : Char)
    (hlen : st.2.length = st.1.ndim) :
    ((collapseLabel st label).2.length = (collapseLabel st label).1.ndim) ∧
    (∀ c, (collapseLabel st label).2.count c =
      if c = label then min (st.2.count c) 1 else st.2.count c) := by
  simp only [collapseLabel]
  rcases hax : positionsOf st.2 label with _ | ⟨h0, tail⟩
  · have hcount : st.2.count label = 0 := by
      rw [← length_positionsOf, hax]; rfl
    simp only [List.drop_nil, List.reverse_nil, List.foldl_nil]
    refine ⟨hlen, fun c => ?_⟩
    by_cases hc : c = label
    · rw [if_pos hc, hc, hcount]; rfl
    · rw [if_neg hc]
  · have hpos := pairwise_positionsOf st.2 label
    rw [hax] at hpos
    have hpc := List.pairwise_cons.mp hpos
    have hcount : st.2.count label = tail.length + 1 := by
      rw [← length_positionsOf, hax, List.length_cons]
    simp only [List.drop_succ_cons, List.drop_zero, List.headD_cons]
    have hchain := collapseChain label h0 tail.reverse st.1 st.2
      (List.pairwise_reverse.mpr hpc.2)
      (by
        intro b hb
        have hbt : b ∈ tail := List.mem_reverse.mp hb
        have hbm : b ∈ positionsOf st.2 label := by
          rw [hax]; exact List.mem_cons_of_mem _ hbt
        obtain ⟨hblen, hgb⟩ := (mem_positionsOf st.2 label b).mp hbm
        exact ⟨hpc.1 b hbt, hblen, hgb⟩)
      hlen
    refine ⟨hchain.1, fun c => ?_⟩
    rw [hchain.2.2 c, List.length_reverse]
    by_cases hc : c = label
    · rw [if_pos hc, if_pos hc, hc, hcount]
      omega
    · rw [if_neg hc, if_neg hc]
      simp

/-- The outer label fold of SingleViewCalculator: processing a
duplicate-free list of labels drives every processed label's count to at
most one while keeping the subscript length equal to the rank. -/
theorem svcFold_spec (sub0 : List Char) :
    ∀ (labels : List Char) (t : Tensor) (sub : List Char),
      labels.Nodup →
      sub.length = t.ndim →
      (∀ c ∈ labels, sub.count c = sub0.count c) →
      (∀ c, c ∉ labels → sub.count c ≤ 1) →
      ((labels.foldl
          (fun st label => if sub0.count label = 1 then st else collapseLabel st label)
          (t, sub)).2.length =
        (labels.foldl
          (fun st label => if sub0.count label = 1 then st else collapseLabel st label)
          (t, sub)).1.ndim) ∧
      (∀ c, (labels.foldl
          (fun st label => if sub0.count label = 1 then st else collapseLabel st label)
          (t, sub)).2.count c ≤ 1) := by
  intro labels
  induction labels with
  | nil =>
    intro t sub _ hlen _ hout
    exact ⟨hlen, fun c => hout c (List.not_mem_nil c)⟩
  | cons a rest ih =>
    intro t sub hnd hlen hin hout
    have hnd' := List.nodup_cons.mp hnd
    rw [List.foldl_cons]
    by_cases ha : sub0.count a = 1
    · rw [if_pos ha]
      refine ih t sub hnd'.2 hlen
        (fun c hc => hin c (List.mem_cons_of_mem _ hc)) (fun c hc => ?_)
      by_cases hca : c = a
      · rw [hca, hin a (List.mem_cons_self _ _), ha]
      · exact hout c (fun hmem => hc (by
          rcases List.mem_cons.mp hmem with h1 | h1
          · exact absurd h1 hca
          · exact h1))
    · rw [if_neg ha]
      obtain ⟨hlab1, hlab2⟩ := collapseLabel_spec (t, sub) a hlen
      have := ih (collapseLabel (t, sub) a).1 (collapseLabel (t, sub) a).2
        hnd'.2 hlab1
        (fun c hc => by
          rw [hlab2 c, if_neg (fun hca => hnd'.1 (by rw [← hca]; exact hc))]
          exact hin c (List.mem_cons_of_mem _ hc))
        (fun c hc => by
          rw [hlab2 c]
          by_cases hca : c = a
          · rw [if_pos hca]; omega
          · rw [if_neg hca]
            exact hout c (fun hmem => hc (by
              rcases List.mem_cons.mp hmem with h1 | h1
              · exact absurd h1 hca
              · exact h1)))
      exact this

/-- C8: for an operand/subscript pair with one label per axis, the
subscript produced by SingleViewCalculator has no repeated labels, and
its length still equals the rank of the produced array. -/
theorem single_view_invariant (t : Tensor) (sub : List Char)
    (hlen : sub.length = t.ndim) :
    (SingleViewCalculator t sub).2.Nodup ∧
    (SingleViewCalculator t sub).2.length = (SingleViewCalculator t sub).1.ndim := by
  have h := svcFold_spec sub (dedupFirst sub) t sub (nodup_dedupFirst sub) hlen
    (fun c _ => rfl)
    (fun c hc => by
      have : c ∉ sub := fun hmem => hc (mem_dedupFirst_of sub c hmem)
      rw [List.count_eq_zero.mpr this]
      omega)
  exact ⟨List.nodup_iff_count_le_one.mpr (fun c => h.2 c), h.1⟩

/-- C8 witness: the square-diagonal pair ('ii', 2x2 operand) satisfies
the invariant after collapse. -/
theorem single_view_invariant_witness :
    (SingleViewCalculator t22 ['i', 'i']).2.Nodup ∧
    (SingleViewCalculator t22 ['i', 'i']).2.length =
      (SingleViewCalculator t22 ['i', 'i']).1.ndim :=
  single_view_invariant t22 ['i', 'i'] rfl

/-- dedupFirstAux only returns elements of its input list. -/
theorem mem_of_mem_dedupFirstAux :
    ∀ (l seen : List Char) (c : Char), c ∈ dedupFirstAux seen l → c ∈ l := by
  intro l
  induction l with
  | nil => intro seen c h; cases h
  | cons a t ih =>
    intro seen c h
    simp only [dedupFirstAux] at h
    by_cases ha : seen.contains a
    · rw [if_pos ha] at h
      exact List.mem_cons_of_mem _ (ih seen c h)
    · rw [if_neg ha] at h
      rcases List.mem_cons.mp h with rfl | h2
      · exact List.mem_cons_self _ _
      · exact List.mem_cons_of_mem _ (ih (a :: seen) c h2)

/-- dedupFirst only returns elements of its input list. -/
theorem mem_of_mem_dedupFirst (l : List Char) (c : Char) (h : c ∈ dedupFirst l) :
    c ∈ l :=
  mem_of_mem_dedupFirstAux l [] c h

/-- On a duplicate-free list avoiding the accumulator, dedupFirstAux is
the identity. -/
theorem dedupFirstAux_eq_self :
    ∀ (l seen : List Char), l.Nodup → (∀ c ∈ l, c ∉ seen) → dedupFirstAux seen l = l := by
  intro l
  induction l with
  | nil => intro seen _ _; rfl
  | cons a t ih =>
    intro seen hnd hout
    have hnd' := List.nodup_cons.mp hnd
    simp only [dedupFirstAux]
    rw [if_neg (fun hc =>
      hout a (List.mem_cons_self _ _) ((contains_eq_true_iff seen a).mp hc))]
    rw [ih (a :: seen) hnd'.2 (fun c hc => by
      intro hmem
      rcases List.mem_cons.mp hmem with rfl | h2
      · exact hnd'.1 hc
      · exact hout c (List.mem_cons_of_mem _ hc) h2)]

/-- On a duplicate-free list, dedupFirst is the identity. -/
theorem dedupFirst_eq_self (l : List Char) (h : l.Nodup) : dedupFirst l = l :=
  dedupFirstAux_eq_self l [] h (fun _ _ => List.not_mem_nil _)

/-- With no repeated label, SingleViewCalculator is the identity. -/
theorem SingleViewCalculator_nodup_id (t : Tensor) (sub : List Char) (h : sub.Nodup) :
    SingleViewCalculator t sub = (t, sub) := by
  unfold SingleViewCalculator
  have key : ∀ (labels : List Char) (st : Tensor × List Char), (∀ c ∈ labels, sub.count c = 1) →
      labels.foldl
        (fun st label => if sub.count label = 1 then st else collapseLabel st label) st = st := by
    intro labels
    induction labels with
    | nil => intro st _; rfl
    | cons a r ih =>
      intro st hc
      rw [List.foldl_cons, if_pos (hc a (List.mem_cons_self _ _))]
      exact ih st (fun c h2 => hc c (List.mem_cons_of_mem _ h2))
  exact key (dedupFirst sub) (t, sub)
    (fun c hc => List.count_eq_one_of_mem h (mem_of_mem_dedupFirst sub c hc))

/-- When every input label also occurs in the output subscript, the
summation stage passes the pair through unchanged. -/
theorem SummedViewCalculator_id (t : Tensor) (inSub outSub : List Char)
    (h : ∀ c ∈ inSub, outSub.contains c = true) :
    SummedViewCalculator t inSub outSub = (t, inSub) := by
  simp only [SummedViewCalculator]
  have hlab : (dedupFirst inSub).filter (fun c => !outSub.contains c) = [] := by
    rw [List.filter_eq_nil_iff]
    intro c hc
    rw [h c (mem_of_mem_dedupFirst inSub c hc)]
    simp
  rw [hlab]
  simp [List.contains_nil]

/-- Splitting a comma-free string yields the single whole piece. -/
theorem splitOnComma_no_comma :
    ∀ (l : List Char), (∀ c ∈ l, c ≠ ',') → splitOnComma l = [l] := by
  intro l
  induction l with
  | nil => intro _; rfl
  | cons a t ih =>
    intro h
    simp only [splitOnComma]
    rw [if_neg (h a (List.mem_cons_self _ _))]
    rw [ih (fun c hc => h c (List.mem_cons_of_mem _ hc))]

/-- A letter is none of the structural characters of the grammar and is
in the regular alphabet. -/
theorem alpha_char_props (c : Char) (h : c.isAlpha = true) :
    c ≠ '.' ∧ c ≠ ' ' ∧ c ≠ ',' ∧ c ≠ '-' ∧ isRegularChar c = true := by
  refine ⟨?_, ?_, ?_, ?_, by simp [isRegularChar, h]⟩ <;>
    (intro hc; rw [hc] at h; exact absurd h (by decide))

/-- Reading every position of a list back off with getD reproduces it. -/
theorem map_getD_range :
    ∀ (l : List Nat), (List.range l.length).map (fun p => l.getD p 0) = l := by
  intro l
  induction l with
  | nil => rfl
  | cons a t ih =>
    rw [List.length_cons, List.range_succ_eq_map, List.map_cons, List.map_map]
    rw [List.getD_cons_zero]
    congr 1

/-- indexOf commutes with mapping the successor over a list of naturals. -/
theorem indexOf_map_succ :
    ∀ (r : List Nat) (q : Nat), (r.map Nat.succ).indexOf (q + 1) = r.indexOf q := by
  intro r
  induction r with
  | nil => intro q; rfl
  | cons a t ih =>
    intro q
    rw [List.map_cons, List.indexOf_cons, List.indexOf_cons]
    have : (Nat.succ a == q + 1) = (a == q) := by
      by_cases hq : a = q
      · simp [hq]
      · simp [hq, Nat.succ_inj]
    rw [this]
    cases hb : (a == q)
    · simp only [cond_false]
      rw [ih q]
    · rfl

/-- Every valid position indexes to itself inside a range. -/
theorem indexOf_range : ∀ (n p : Nat), p < n → (List.range n).indexOf p = p := by
  intro n
  induction n with
  | zero => intro p h; omega
  | succ m ih =>
    intro p h
    rw [List.range_succ_eq_map]
    cases p with
    | zero => rfl
    | succ q =>
      rw [List.indexOf_cons]
      have : ((0 : Nat) == q + 1) = false := by simp
      rw [this]
      simp only [cond_false]
      rw [indexOf_map_succ, ih q (by omega)]

/-- Tensor equivalence is reflexive. -/
theorem Tensor.eqv_refl (t : Tensor) : Tensor.eqv t t :=
  ⟨rfl, rfl, fun _ _ => rfl⟩

/-- Transposing by the identity permutation yields an equivalent tensor. -/
theorem transpose_range_eqv (t : Tensor) :
    Tensor.eqv t (t.transpose (List.range t.ndim)) := by
  refine ⟨rfl, ?_, ?_⟩
  · simp only [Tensor.transpose, Tensor.ndim]
    exact (map_getD_range t.shape).symm
  · intro idx hv
    simp only [Tensor.transpose, Tensor.ndim]
    have hlen : idx.length = t.shape.length := List.Forall₂.length_eq hv
    congr 1
    have hcg : ∀ p ∈ List.range t.shape.length,
        idx.getD ((List.range t.shape.length).indexOf p) 0 = idx.getD p 0 := by
      intro p hp
      rw [indexOf_range t.shape.length p (List.mem_range.mp hp)]
    rw [List.map_congr_left hcg, ← hlen, map_getD_range idx]

/-- The source's implicit-output computation (sorted set of labels minus
the dummy labels) equals the spec's sorted list of labels occurring
exactly once. -/
theorem implicitOutput_eq_sortedOnce (l : List Char) :
    implicitOutputSubscript l = sortedOnceLabelsSpec l := by
  unfold implicitOutputSubscript sortedOnceLabelsSpec
  have hnd1 : ((dedupFirst l).filter (fun c => !(get_dummy_labels l).contains c)).Nodup :=
    List.Nodup.filter _ (nodup_dedupFirst l)
  have hperm : ((dedupFirst l).filter (fun c => !(get_dummy_labels l).contains c)).Perm
      (l.filter (fun c => l.count c == 1)) := by
    rw [List.perm_iff_count]
    intro x
    by_cases h1 : l.count x = 1
    · have hx : x ∈ l := by
        by_contra hx
        rw [List.count_eq_zero.mpr hx] at h1
        omega
      have hxd : (get_dummy_labels l).contains x = false := by
        refine Bool.eq_false_iff.mpr (fun hc => ?_)
        have hmd := (contains_eq_true_iff _ _).mp hc
        have := (List.mem_filter.mp hmd).2
        rw [h1] at this
        simp at this
      have hx1 : x ∈ (dedupFirst l).filter (fun c => !(get_dummy_labels l).contains c) :=
        List.mem_filter.mpr ⟨mem_dedupFirst_of l x hx, by rw [hxd]; rfl⟩
      rw [List.count_eq_one_of_mem hnd1 hx1, List.count_filter (by simp [h1]), h1]
    · have hb2 : (l.filter (fun c => l.count c == 1)).count x = 0 :=
        List.count_eq_zero.mpr (fun hmem => by
          have := (List.mem_filter.mp hmem).2
          rw [beq_iff_eq] at this
          exact h1 this)
      have hb1 : x ∉ (dedupFirst l).filter (fun c => !(get_dummy_labels l).contains c) := by
        intro hmem
        obtain ⟨hm1, hm2⟩ := List.mem_filter.mp hmem
        have hxl : x ∈ l := mem_of_mem_dedupFirst l x hm1
        have hge1 : l.count x ≠ 0 := fun h0 => (List.count_eq_zero.mp h0) hxl
        have h2 : 2 ≤ l.count x := by omega
        have hdum : x ∈ get_dummy_labels l :=
          List.mem_filter.mpr ⟨mem_dedupFirst_of l x hxl, by simp [h2]⟩
        rw [(contains_eq_true_iff _ _).mpr hdum] at hm2
        simp at hm2
      rw [List.count_eq_zero.mpr hb1, hb2]
  exact List.eq_of_perm_of_sorted
    ((List.perm_insertionSort _ _).trans (hperm.trans (List.perm_insertionSort _ _).symm))
    (List.sorted_insertionSort _ _) (List.sorted_insertionSort _ _)

/-- Mapping every element of a duplicate-free list to its own index
yields the identity range. -/
theorem map_indexOf_self :
    ∀ (sub : List Char), sub.Nodup →
      sub.map (fun c => sub.indexOf c) = List.range sub.length := by
  intro sub
  induction sub with
  | nil => intro _; rfl
  | cons a t ih =>
    intro hnd
    have hnd' := List.nodup_cons.mp hnd
    rw [List.map_cons, List.indexOf_cons_self, List.length_cons, List.range_succ_eq_map]
    congr 1
    have hstep : ∀ c ∈ t, List.indexOf c (a :: t) = Nat.succ (List.indexOf c t) := by
      intro c hc
      exact List.indexOf_cons_ne t (fun hac => hnd'.1 (hac ▸ hc))
    rw [List.map_congr_left hstep, ← ih hnd'.2, List.map_map]
    rfl

/-- The transpose order list computed by TransposedViewCalculator for a
duplicate-free subscript against its sorted form is a permutation of the
identity range. -/
theorem orders_perm_range (sub : List Char) (hnd : sub.Nodup) :
    ((List.insertionSort (· ≤ ·) sub).map (fun label => sub.indexOf label)).Perm
      (List.range sub.length) := by
  have h1 := List.Perm.map (fun label => sub.indexOf label)
    (List.perm_insertionSort (· ≤ ·) sub)
  rw [map_indexOf_self sub hnd] at h1
  exact h1

/-- For a duplicate-free subscript, TransposedViewCalculator against the
sorted output realizes exactly the ascending-label-order transpose (up to
tensor equivalence), and is the identity when the subscript is already
sorted. -/
theorem tvc_sorted_spec (t : Tensor) (sub : List Char) (hnd : sub.Nodup)
    (hlen : sub.length = t.ndim) :
    Tensor.eqv (TransposedViewCalculator t sub (List.insertionSort (· ≤ ·) sub))
      (t.transpose (ascendingOrdersSpec sub)) ∧
    (List.Sorted (· ≤ ·) sub →
      TransposedViewCalculator t sub (List.insertionSort (· ≤ ·) sub) = t) := by
  have hordspec : ascendingOrdersSpec sub =
      (List.insertionSort (· ≤ ·) sub).map (fun label => sub.indexOf label) := rfl
  constructor
  · simp only [TransposedViewCalculator]
    split
    · rename_i hsorted
      have hs2 : List.Sorted (· ≤ ·)
          ((List.insertionSort (· ≤ ·) sub).map (fun label => sub.indexOf label)) := by
        rw [hsorted]
        exact List.sorted_insertionSort _ _
      have hrange : (List.insertionSort (· ≤ ·) sub).map (fun label => sub.indexOf label) =
          List.range sub.length :=
        List.eq_of_perm_of_sorted (orders_perm_range sub hnd) hs2
          ((List.pairwise_lt_range sub.length).imp le_of_lt)
      rw [hordspec, hrange, hlen]
      exact transpose_range_eqv t
    · rw [hordspec]
      exact Tensor.eqv_refl _
  · intro hsort
    have hins : List.insertionSort (· ≤ ·) sub = sub := List.Sorted.insertionSort_eq hsort
    simp only [TransposedViewCalculator, hins, map_indexOf_self sub hnd]
    rw [if_pos (List.Sorted.insertionSort_eq
      ((List.pairwise_lt_range sub.length).imp le_of_lt)).symm]

/-- For a duplicate-free label list there are no dummy labels, so the
implicit-output base set is the list itself. -/
theorem implicit_base_nodup (sub : List Char) (hnd : sub.Nodup) :
    (dedupFirst sub).filter (fun c => !(get_dummy_labels sub).contains c) = sub := by
  have hdum : get_dummy_labels sub = [] := by
    rw [get_dummy_labels, List.filter_eq_nil_iff]
    intro c hc
    have h1 := List.count_eq_one_of_mem hnd (mem_of_mem_dedupFirst _ _ hc)
    simp [h1]
  rw [hdum]
  rw [List.filter_eq_self.mpr (fun a _ => by simp [List.contains_nil])]
  exact dedupFirst_eq_self sub hnd

/-- Parsing an all-letter duplicate-free nonempty subscript with one
operand reaches the pipeline with the subscript itself as input side and
its sorted form as the implicit output. -/
theorem einsum_implicit_single_parse (d : DType) (shape : List Nat) (f : List Nat → Int)
    (sub : List Char) (hnd : sub.Nodup) (halpha : ∀ c ∈ sub, c.isAlpha = true)
    (hne : sub ≠ []) :
    einsumResult sub [⟨d, shape, f⟩] =
      (einsumPipeline [Event.convert 0 d] [⟨d, shape, f⟩] sub
        (List.insertionSort (· ≤ ·) sub)).2 := by
  have hdot : sub.contains '.' = false :=
    Bool.eq_false_iff.mpr (fun hc =>
      (alpha_char_props '.' (halpha '.' ((contains_eq_true_iff sub '.').mp hc))).1 rfl)
  have hfilter : sub.filter (fun c => decide (c ≠ ' ')) = sub :=
    List.filter_eq_self.mpr (fun c hc => by
      simp [(alpha_char_props c (halpha c hc)).2.1])
  have hreg : sub.find? (fun c => !isRegularChar c) = none :=
    List.find?_eq_none.mpr (fun x hx => by
      rw [(alpha_char_props x (halpha x hx)).2.2.2.2]
      simp)
  have hfindidx : sub.findIdx? (fun c => c == '-') = none :=
    List.findIdx?_eq_none_iff.mpr (fun x hx =>
      beq_eq_false_iff_ne.mpr (alpha_char_props x (halpha x hx)).2.2.2.1)
  have harrow : (List.range sub.length).find?
      (fun i => sub.getD i ' ' == '-' && sub.getD (i + 1) ' ' == '>') = none := by
    rw [List.find?_eq_none]
    intro i hi
    have him : i < sub.length := List.mem_range.mp hi
    have hmem : sub.getD i ' ' ∈ sub := by
      rw [List.getD_eq_getElem?_getD, List.getElem?_eq_getElem him]
      exact List.getElem_mem him
    have hne2 : sub.getD i ' ' ≠ '-' :=
      (alpha_char_props _ (halpha _ hmem)).2.2.2.1
    intro hcon
    rw [Bool.and_eq_true, beq_iff_eq, beq_iff_eq] at hcon
    exact hne2 hcon.1
  have hcomma2 : sub.filter (fun c => decide (c ≠ ',')) = sub :=
    List.filter_eq_self.mpr (fun c hc => by
      simp [(alpha_char_props c (halpha c hc)).2.2.1])
  have hlen1 : 0 < sub.length := List.length_pos.mpr hne
  simp only [einsumResult, einsum, hdot, Bool.false_eq_true, if_false, hfilter, hreg,
    result_type, List.foldl_nil, List.map_cons, List.map_nil, List.length_cons,
    List.length_nil]
  simp only [einsumArrowPhase, hfindidx]
  rw [if_neg (by omega)]
  rw [if_neg (fun hcon => hcon.1 rfl)]
  simp only [harrow, hcomma2]
  rw [implicit_base_nodup sub hnd]
  rfl

/-- The back half of einsum for a single already-collapsed operand whose
labels all survive into the output is exactly the final transposition. -/
theorem einsum_implicit_single_pipeline (evs0 : List Event) (d : DType) (shape : List Nat)
    (f : List Nat → Int) (sub out : List Char) (hnd : sub.Nodup)
    (hlen : sub.length = shape.length)
    (hcomma : ∀ c ∈ sub, c ≠ ',')
    (hout : ∀ c ∈ sub, out.contains c = true) :
    (einsumPipeline evs0 [⟨d, shape, f⟩] sub out).2 =
      Except.ok (TransposedViewCalculator ⟨d, shape, f⟩ sub out) := by
  have hrun : runSingleViews [sub] [⟨d, shape, f⟩] 0 =
      ([Event.stage], Except.ok [(⟨d, shape, f⟩, sub)]) := by
    simp only [runSingleViews]
    rw [if_neg (by simp only [Tensor.ndim]; omega),
      if_neg (by simp only [Tensor.ndim]; omega)]
    rw [SingleViewCalculator_nodup_id _ _ hnd]
  simp only [einsumPipeline, splitOnComma_no_comma sub hcomma]
  rw [if_neg (by simp), if_neg (by simp)]
  rw [hrun]
  simp only [List.length_cons, List.length_nil]
  rw [if_neg (by omega)]
  simp only [List.headD_cons]
  rw [SummedViewCalculator_id ⟨d, shape, f⟩ sub out hout]

/-- C3 amended: for every single operand and every nonempty all-letter
subscript with no repeated labels and no arrow, einsum returns the
operand transposed so its axes are in ascending label order, returns the
operand itself unchanged when the labels are already ascending, and in
general the implicit output subscript is the sorted sequence of labels
occurring exactly once across the inputs.  (The empty subscript, allowed
by the grammar for 0-d operands, instead trips the malformed-arrow check
— see the counterexample.) -/
theorem einsum_implicit_transpose_law (d : DType) (shape : List Nat) (f : List Nat → Int)
    (sub : List Char) (hnd : sub.Nodup) (halpha : ∀ c ∈ sub, c.isAlpha = true)
    (hne : sub ≠ []) (hlen : sub.length = shape.length) :
    (∃ t, einsumResult sub [⟨d, shape, f⟩] = Except.ok t ∧
      Tensor.eqv t ((⟨d, shape, f⟩ : Tensor).transpose (ascendingOrdersSpec sub))) ∧
    (List.Sorted (· ≤ ·) sub →
      einsumResult sub [⟨d, shape, f⟩] = Except.ok ⟨d, shape, f⟩) ∧
    (∀ l : List Char, implicitOutputSubscript l = sortedOnceLabelsSpec l) := by
  have hcomma : ∀ c ∈ sub, c ≠ ',' := fun c hc =>
    (alpha_char_props c (halpha c hc)).2.2.1
  have hout : ∀ c ∈ sub, (List.insertionSort (· ≤ ·) sub).contains c = true := fun c hc =>
    (contains_eq_true_iff _ _).mpr
      ((List.perm_insertionSort (· ≤ ·) sub).mem_iff.mpr hc)
  have hparse := einsum_implicit_single_parse d shape f sub hnd halpha hne
  have hpipe := einsum_implicit_single_pipeline [Event.convert 0 d] d shape f sub
    (List.insertionSort (· ≤ ·) sub) hnd hlen hcomma hout
  have htvc := tvc_sorted_spec ⟨d, shape, f⟩ sub hnd hlen
  refine ⟨⟨TransposedViewCalculator ⟨d, shape, f⟩ sub (List.insertionSort (· ≤ ·) sub),
    by rw [hparse, hpipe], htvc.1⟩, ?_, implicitOutput_eq_sortedOnce⟩
  intro hsort
  rw [hparse, hpipe, htvc.2 hsort]

/-- C3 counterexample: the empty subscript (valid per the grammar, with a
0-d operand) is not treated as an implicit identity — einsum raises the
malformed-arrow error because str.find returns -1 which equals len-1 for
the empty string. -/
theorem einsum_empty_subscript_malformed :
    einsumResult [] [t0d] = Except.error EinsumErr.malformedArrow := rfl

/-- C3 amended witness: the two-letter descending subscript 'ba' on a
(1,2) operand satisfies all hypotheses and yields the transposed result. -/
theorem einsum_implicit_transpose_law_witness :
    (∃ t, einsumResult ['b', 'a'] [⟨DType.int64, [1, 2], fun _ => 3⟩] = Except.ok t ∧
      Tensor.eqv t ((⟨DType.int64, [1, 2], fun _ => 3⟩ : Tensor).transpose
        (ascendingOrdersSpec ['b', 'a']))) ∧
    (List.Sorted (· ≤ ·) ['b', 'a'] →
      einsumResult ['b', 'a'] [⟨DType.int64, [1, 2], fun _ => 3⟩] =
        Except.ok ⟨DType.int64, [1, 2], fun _ => 3⟩) ∧
    (∀ l : List Char, implicitOutputSubscript l = sortedOnceLabelsSpec l) :=
  einsum_implicit_transpose_law DType.int64 [1, 2] (fun _ => 3) ['b', 'a']
    (by decide) (by decide) (by decide) rfl

end CupyEinsum
